import Mathlib

/-!
Verification development for the Singer SDK message-IO core
(`singer_sdk/io_base.py`), the catalog-selection projection used by the
sample countries tap (`samples/sample_tap_countries/countries_streams.py`),
and the test-template lifecycle (`singer_sdk/testing/templates.py`).

The Python code is shallowly embedded: JSON values become an inductive
type, exceptions become an error inductive threaded through `Except`,
the abstract handler methods of `SingerReader` become function-valued
parameters, and observable actions (handler invocations, metrics events,
the end-of-pipe hook) are recorded in an event trace.
-/

namespace SingerSDK

/-- A decimal number as produced by Python's `decimal.Decimal` from a JSON
numeric literal that contains a fraction part: `neg` is the sign, `coeff`
the coefficient (all digits of the literal read as one natural number,
so leading zeros of the literal vanish but trailing zeros are kept), and
`fexp` the number of fractional digits (`Decimal` stores exponent
`-fexp`).  `Decimal` preserves trailing zeros: `1.10` is `⟨false, 110, 2⟩`
while `1.1` is `⟨false, 11, 1⟩`, and the two are distinct values. -/
structure Dec where
  neg : Bool
  coeff : Nat
  fexp : Nat
deriving DecidableEq, Repr

mutual

/-- JSON values as returned by `json.loads(line, parse_float=decimal.Decimal)`
(see `SingerReader.deserialize_json`): integer literals become exact Python
ints (`int`), fractional literals become `decimal.Decimal` (`dec`). -/
inductive JsonValue where
  | null : JsonValue
  | bool (b : Bool) : JsonValue
  | str (s : String) : JsonValue
  | int (n : Int) : JsonValue
  | dec (d : Dec) : JsonValue
  | arr (xs : JsonArr) : JsonValue
  | obj (kvs : JsonObj) : JsonValue
deriving DecidableEq

/-- A JSON array (Python `list`). -/
inductive JsonArr where
  | nil : JsonArr
  | cons (hd : JsonValue) (tl : JsonArr) : JsonArr
deriving DecidableEq

/-- A parsed JSON object (Python `dict`): key/value entries in insertion
order.  Well-formed parses have unique keys. -/
inductive JsonObj where
  | nil : JsonObj
  | cons (k : String) (v : JsonValue) (tl : JsonObj) : JsonObj
deriving DecidableEq

end

/-- Python `d[k]` lookup (first entry with the key). -/
def JsonObj.lookup (d : JsonObj) (key : String) : Option JsonValue :=
  match d with
  | .nil => none
  | .cons k v tl => if k = key then some v else tl.lookup key

/-- The keys of a parsed object (`set(line_dict)` in Python, as the ordered
list of keys). -/
def JsonObj.keys (d : JsonObj) : List String :=
  match d with
  | .nil => []
  | .cons k _ tl => k :: tl.keys

/-- Python `k in d`. -/
def JsonObj.hasKey (d : JsonObj) (key : String) : Bool :=
  d.keys.contains key

/-- The exceptions the reader can raise, named after the spec's error
taxonomy; the concrete Python classes are in parentheses:
`parseError` (`json.decoder.JSONDecodeError`, re-raised by
`deserialize_json` after logging the offending line, which we record in
the constructor), `invalidInputError` (`InvalidInputLine`, raised by
`_assert_line_requires` with the full list of missing keys),
`unrecognizedMessageError` (`ValueError`, raised by
`_process_unknown_message` with a message naming the unknown type),
`keyError` (Python `KeyError`), `notImplementedError`
(`NotImplementedError`, used by the test templates), `valueError`
(plain `ValueError`), and `handlerError` for exceptions raised by the
abstract kind handlers supplied by a concrete reader. -/
inductive PyErr where
  | parseError (line : String) : PyErr
  | invalidInputError (missing : List String) (lineDict : JsonObj) : PyErr
  | unrecognizedMessageError (msg : String) : PyErr
  | keyError (k : String) : PyErr
  | notImplementedError (msg : String) : PyErr
  | valueError (msg : String) : PyErr
  | handlerError (tag : Nat) : PyErr
deriving DecidableEq

/-- `SingerReader.deserialize_json`: parses one line of JSON.  The Python
implementation calls `json.loads(line, parse_float=decimal.Decimal)`; the
JSON grammar itself is external (the standard library), so the parser is a
parameter `parse` mapping a line to `some` object or `none` on a syntax
error.  On `none` the Python code logs the offending line and re-raises
`json.decoder.JSONDecodeError`; the error value keeps the line. -/
def deserialize_json (parse : String → Option JsonObj) (line : String) :
    Except PyErr JsonObj :=
  match parse line with
  | some d => .ok d
  | none => .error (.parseError line)

/-- `SingerReader._assert_line_requires`: if `requires` is not a subset of
the object's keys, raise `InvalidInputLine` reporting the complete missing
subset `requires - set(line_dict)` (not just the first missing key). -/
def assert_line_requires (line_dict : JsonObj) (requires : List String) :
    Except PyErr Unit :=
  if requires.all line_dict.hasKey then .ok ()
  else .error (.invalidInputError
    (requires.filter (fun k => ! line_dict.hasKey k)) line_dict)

/-- The five recognized values of `SingerMessageType` (a `str` enum). -/
def knownMessageTypes : List String :=
  ["SCHEMA", "RECORD", "ACTIVATE_VERSION", "STATE", "BATCH"]

/-- Rendering of a JSON value for interpolation into a Python f-string.
Only the `str` case — where Python's f-string yields the string itself —
is relied on by any theorem; the remaining scalar cases follow Python's
`str`, and containers are abbreviated. -/
def JsonValue.pyStr : JsonValue → String
  | .null => "None"
  | .bool true => "True"
  | .bool false => "False"
  | .str s => s
  | .int n => toString n
  | .dec d => toString (repr d)
  | .arr _ => "[...]"
  | .obj _ => "dict"

/-- `SingerReader._process_unknown_message`: the default unknown-message
policy raises `ValueError` (the spec's `UnrecognizedMessageError`) whose
message names the unknown `type` value (`message_dict["type"]`).  Python
formats the message as an f-string reading: Unknown message type
'{record_type}' in message.  We keep the words and the interpolated type
value (dropping the quotation marks Python puts around the value). -/
def process_unknown_message (message_dict : JsonObj) : Except PyErr Unit :=
  match message_dict.lookup "type" with
  | none => .error (.keyError "type")
  | some v => .error (.unrecognizedMessageError
      ("Unknown message type " ++ v.pyStr ++ " in message."))

/-- The abstract message handlers a concrete `SingerReader` supplies
(`_process_schema_message`, `_process_record_message`,
`_process_state_message`, `_process_activate_version_message`,
`_process_batch_message`), plus the overridable unknown-message handler
whose default is `process_unknown_message`.  Each may raise. -/
structure Handlers where
  schema : JsonObj → Except PyErr Unit
  record : JsonObj → Except PyErr Unit
  state : JsonObj → Except PyErr Unit
  activateVersion : JsonObj → Except PyErr Unit
  batch : JsonObj → Except PyErr Unit
  unknown : JsonObj → Except PyErr Unit := process_unknown_message

/-- Observable actions of one `listen` invocation, in order: the sync
duration timer enter/exit (tagged with the process id), the record-count
metric increment, each kind-handler invocation carrying the full parsed
dict, and the end-of-pipe hook. -/
inductive Event where
  | timerStart (pid : Nat) : Event
  | timerStop (pid : Nat) : Event
  | counterIncrement : Event
  | schemaMsg (d : JsonObj) : Event
  | recordMsg (d : JsonObj) : Event
  | activateVersionMsg (d : JsonObj) : Event
  | stateMsg (d : JsonObj) : Event
  | batchMsg (d : JsonObj) : Event
  | unknownMsg (d : JsonObj) : Event
  | endOfPipe : Event
deriving DecidableEq

/-- The running per-kind stats: `stats: dict[str, int] = defaultdict(int)`
keyed by the line's `type` value, in first-insertion order.  (Python keys
the dict by `record_type`, the raw value of `line_dict["type"]`.) -/
abbrev Stats := List (JsonValue × Nat)

/-- `stats[record_type] += 1` with `defaultdict(int)` semantics. -/
def Stats.incr (s : Stats) (k : JsonValue) : Stats :=
  match s with
  | [] => [(k, 1)]
  | (k', n) :: rest =>
      if k' = k then (k', n + 1) :: rest else (k', n) :: Stats.incr rest k

/-- The count recorded for a kind (0 when absent). -/
def Stats.get (s : Stats) (k : JsonValue) : Nat :=
  match s with
  | [] => 0
  | (k', n) :: rest => if k' = k then n else Stats.get rest k

/-- The sum of all per-kind counts. -/
def Stats.total (s : Stats) : Nat :=
  (s.map Prod.snd).sum

/-- Dispatch of one already-validated line dict on its `type` value, as in
the `if`/`elif` chain of `_process_lines`: the five known kinds go to
their handlers (`RECORD` additionally increments the live record-count
metric first), anything else goes to the unknown-message handler.
Returns the events of the dispatch and the handler's outcome. -/
def dispatchLine (h : Handlers) (record_type : JsonValue) (line_dict : JsonObj) :
    List Event × Except PyErr Unit :=
  if record_type = .str "SCHEMA" then
    ([.schemaMsg line_dict], h.schema line_dict)
  else if record_type = .str "RECORD" then
    ([.counterIncrement, .recordMsg line_dict], h.record line_dict)
  else if record_type = .str "ACTIVATE_VERSION" then
    ([.activateVersionMsg line_dict], h.activateVersion line_dict)
  else if record_type = .str "STATE" then
    ([.stateMsg line_dict], h.state line_dict)
  else if record_type = .str "BATCH" then
    ([.batchMsg line_dict], h.batch line_dict)
  else
    ([.unknownMsg line_dict], h.unknown line_dict)

/-- One iteration of the `_process_lines` loop on a single line:
deserialize it, assert the `type` key is present, read
`line_dict["type"]`, and dispatch.  Returns the events of the iteration
and either the first exception or the `record_type` value (which the
loop then counts in the stats). -/
def processOneLine (parse : String → Option JsonObj) (h : Handlers)
    (line : String) : List Event × Except PyErr JsonValue :=
  match deserialize_json parse line with
  | .error e => ([], .error e)
  | .ok line_dict =>
    match assert_line_requires line_dict ["type"] with
    | .error e => ([], .error e)
    | .ok () =>
      match line_dict.lookup "type" with
      | none => ([], .error (.keyError "type"))
      | some record_type =>
        let (evs, res) := dispatchLine h record_type line_dict
        match res with
        | .error e => (evs, .error e)
        | .ok () => (evs, .ok record_type)

/-- The loop of `_process_lines`, processing the remaining lines with the
stats accumulated so far.  Only after a line's handler returns normally
is `stats[record_type] += 1` executed.  Returns the event trace, the
stats at exit, and the first exception if one was raised (which aborts
the loop: no later line is read). -/
def processLinesAux (parse : String → Option JsonObj) (h : Handlers) :
    List String → Stats → List Event × Stats × Option PyErr
  | [], stats => ([], stats, none)
  | line :: rest, stats =>
    match processOneLine parse h line with
    | (evs, .error e) => (evs, stats, some e)
    | (evs, .ok record_type) =>
      let (evs', stats', err) :=
        processLinesAux parse h rest (stats.incr record_type)
      (evs ++ evs', stats', err)

/-- `SingerReader._process_lines`: processes every line of the input and
returns the per-kind counter (`Counter(**stats)` preserves the key→count
mapping of the accumulated dict); an exception propagates to the caller. -/
def process_lines (parse : String → Option JsonObj) (h : Handlers)
    (file_input : List String) : Except PyErr Stats :=
  match processLinesAux parse h file_input [] with
  | (_, stats, none) => .ok stats
  | (_, _, some e) => .error e

/-- `SingerReader.listen`: wraps `_process_lines` followed by
`_process_endofpipe` in a `metrics.Timer` tagged with the current process
id (the `with load_timer:` block also closes the timer when an exception
escapes, and the exception propagates, skipping the end-of-pipe hook).
Returns the full event trace and the outcome. -/
def listen (parse : String → Option JsonObj) (h : Handlers) (pid : Nat)
    (file_input : List String) : List Event × Except PyErr Unit :=
  match processLinesAux parse h file_input [] with
  | (evs, _, none) =>
      (.timerStart pid :: evs ++ [.endOfPipe, .timerStop pid], .ok ())
  | (evs, _, some e) =>
      (.timerStart pid :: evs ++ [.timerStop pid], .error e)

/-! ### Catalog selection projection
(`samples/sample_tap_countries/countries_streams.py`). -/

/-- A Selection Mask: a mapping from a field path (ordered sequence of
path segments) to a boolean selected indicator, in insertion order.
A path is selected only if explicitly marked true. -/
abbrev SelectionMask := List (List String × Bool)

/-- The paths a mask marks selected, in mask order. -/
def SelectionMask.selectedPaths (m : SelectionMask) : List (List String) :=
  (m.filter (fun e => e.2)).map Prod.fst

/-- A Field Tree: an ordered mapping from a field name to its own Field
Tree (Python `FieldTree = dict[str, FieldTree]`), rendered as an
inductive association structure: `cons name sub rest` is the entry
`name ↦ sub` followed by the remaining entries `rest`. -/
inductive FieldTree where
  | nil : FieldTree
  | cons (name : String) (sub : FieldTree) (rest : FieldTree) : FieldTree
deriving DecidableEq

/-- The top-level field names of a tree, in order. -/
def FieldTree.names : FieldTree → List String
  | .nil => []
  | .cons k _ rest => k :: rest.names

/-- Modelled from the spec: one path insertion of `selection_to_tree`
(`singer_sdk.helpers._catalog`, whose source is not in the repository
snapshot): insert each path segment into the tree, creating intermediate
nodes as needed; an existing node for a segment is descended into, a new
sibling is appended at the end so children keep first-insertion order. -/
def FieldTree.insertPath : FieldTree → List String → FieldTree
  | t, [] => t
  | .nil, s :: rest => .cons s (FieldTree.insertPath .nil rest) .nil
  | .cons k sub r, s :: rest =>
      if k = s then .cons k (sub.insertPath rest) r
      else .cons k sub (r.insertPath (s :: rest))
termination_by t p => (p.length, sizeOf t)

/-- Modelled from the spec: `selection_to_tree`
(`singer_sdk.helpers._catalog`, not in the repository snapshot): for
every selected path of the mask, in mask order, insert the path into the
tree; no entry is created for unselected paths. -/
def selection_to_tree (selection : SelectionMask) : FieldTree :=
  selection.foldl
    (fun t e => if e.2 then t.insertPath e.1 else t) .nil

mutual

/-- A GraphQL query field (`graphql_query.Field`, an external collaborator
of the sample tap): a name carrying its rendered children. -/
inductive Field where
  | mk (name : String) (fields : FieldList) : Field
deriving DecidableEq

/-- A list of GraphQL query fields. -/
inductive FieldList where
  | nil : FieldList
  | cons (hd : Field) (tl : FieldList) : FieldList
deriving DecidableEq

end

/-- The name of a field. -/
def Field.name : Field → String
  | .mk n _ => n

/-- The children of a field. -/
def Field.fields : Field → FieldList
  | .mk _ fs => fs

/-- `_tree_to_fields` (countries_streams.py): convert a tree to a list of
GraphQL fields — one `Field(name=name, fields=_tree_to_fields(subtree))`
per tree entry, in tree order. -/
def _tree_to_fields : FieldTree → FieldList
  | .nil => .nil
  | .cons name sub rest => .cons (.mk name (_tree_to_fields sub)) (_tree_to_fields rest)

/-- `selection_to_fields` (countries_streams.py): convert a selection mask
to the GraphQL field list, composing `selection_to_tree` and
`_tree_to_fields`. -/
def selection_to_fields (selection : SelectionMask) : FieldList :=
  _tree_to_fields (selection_to_tree selection)

/-- Both calls of one double invocation of `selection_to_fields` on the
same mask, together with the mask as observable after the calls (the
code only reads the mask, so the embedding returns it unchanged). -/
def selection_to_fields_twice (selection : SelectionMask) :
    FieldList × FieldList × SelectionMask :=
  (selection_to_fields selection, selection_to_fields selection, selection)

/-- Whether the rendered field list contains the given path: each segment
names a field at its level, descending through that field's children.
(The empty path is trivially contained.) -/
def FieldList.hasPath : FieldList → List String → Bool
  | _, [] => true
  | .nil, _ :: _ => false
  | .cons f tl, s :: rest =>
      if f.name = s then f.fields.hasPath rest else tl.hasPath (s :: rest)

/-- Whether the tree contains the given path. -/
def FieldTree.hasPath : FieldTree → List String → Bool
  | _, [] => true
  | .nil, _ :: _ => false
  | .cons k sub rest, s :: p =>
      if k = s then sub.hasPath p else rest.hasPath (s :: p)

/-- `q` is a prefix of some selected path of the mask. -/
def SelectionMask.onSelectedPath (m : SelectionMask) (q : List String) : Prop :=
  ∃ p ∈ m.selectedPaths, ∃ r, q ++ r = p

/-! ### Test templates (`singer_sdk/testing/templates.py`). -/

/-- Python truthiness for `TestTemplate.name` / `TestTemplate.type`
(attributes typed `str | None`, default `None`): falsy when `None` or
the empty string. -/
def falsyStrOpt : Option String → Bool
  | none => true
  | some s => s = ""

/-- The lifecycle steps of a `TestTemplate`. -/
inductive Step where
  | setup : Step
  | test : Step
  | validate : Step
  | teardown : Step
deriving DecidableEq

/-- The outcomes of the four overridable lifecycle methods of a concrete
test (each may raise; the base-class bodies of `setup`, `validate` and
`teardown` raise `NotImplementedError`). -/
structure StepResults where
  setup : Except PyErr Unit
  test : Except PyErr Unit
  validate : Except PyErr Unit
  teardown : Except PyErr Unit

/-- `contextlib.suppress(NotImplementedError)` around one step. -/
def suppressNotImplemented : Except PyErr Unit → Except PyErr Unit
  | .error (.notImplementedError _) => .ok ()
  | r => r

/-- `TestTemplate.run`: raises `ValueError` when `name` or `type` is
falsy, before any lifecycle step; otherwise runs `setup` (suppressing
`NotImplementedError`), then `test`, then `validate` (suppressed) inside
a `try` whose `finally` runs `teardown` (suppressed; an exception the
teardown raises besides `NotImplementedError` replaces the in-flight
one).  Returns the steps invoked, in order, and the outcome.  (The
Python message wraps name and type in quotation marks.) -/
def TestTemplate.run (name ty : Option String) (steps : StepResults) :
    List Step × Except PyErr Unit :=
  if falsyStrOpt name || falsyStrOpt ty then
    ([], .error (.valueError "Test must have name and type properties."))
  else
    match suppressNotImplemented steps.setup with
    | .error e => ([.setup], .error e)
    | .ok () =>
      match steps.test with
      | .error e =>
        match suppressNotImplemented steps.teardown with
        | .error e2 => ([.setup, .test, .teardown], .error e2)
        | .ok () => ([.setup, .test, .teardown], .error e)
      | .ok () =>
        match suppressNotImplemented steps.validate with
        | .error e =>
          match suppressNotImplemented steps.teardown with
          | .error e2 => ([.setup, .test, .validate, .teardown], .error e2)
          | .ok () => ([.setup, .test, .validate, .teardown], .error e)
        | .ok () =>
          match suppressNotImplemented steps.teardown with
          | .error e2 => ([.setup, .test, .validate, .teardown], .error e2)
          | .ok () => ([.setup, .test, .validate, .teardown], .ok ())

/-! ### Decimal-precise numeric decoding (`deserialize_json` uses
`json.loads(line, parse_float=decimal.Decimal)`). -/

/-- `decimal.Decimal` applied to a JSON numeric literal with a fraction
part, the literal given by its sign and its integer-part and
fraction-part digit lists (big-endian, each digit < 10): the coefficient
is all digits read as one number — so trailing zeros of the literal stay
significant — and the stored exponent is minus the number of fraction
digits.  This is what `parse_float=decimal.Decimal` produces for such a
literal. -/
def decOfLit (neg : Bool) (ip fp : List Nat) : Dec :=
  { neg := neg
    coeff := Nat.ofDigits 10 (ip ++ fp).reverse
    fexp := fp.length }

/-- The big-endian digits of a `Dec`'s coefficient, padded with leading
zeros to cover the fraction and one integer digit. -/
def Dec.paddedDigits (d : Dec) : List Nat :=
  let ds := (Nat.digits 10 d.coeff).reverse
  List.replicate (d.fexp + 1 - ds.length) 0 ++ ds

/-- Modelled from the spec: re-serialization of a decimal value (the
serializer lives in `singer_sdk._singerlib.messages`, whose source is
not in the repository snapshot; the spec requires it to preserve the
exact decimal representation).  This follows `str(Decimal)` in plain
(non-scientific) notation: the coefficient digits, zero-padded on the
left so that `fexp` digits fall after the point, split into the
integer-part and fraction-part digit lists. -/
def serDec (d : Dec) : Bool × List Nat × List Nat :=
  let padded := d.paddedDigits
  (d.neg, padded.take (padded.length - d.fexp), padded.drop (padded.length - d.fexp))

/-- Python `int` applied to a JSON integer literal given by its big-endian
digits: exact arbitrary-precision conversion (`json.loads` uses `int`
for integer literals; they are never routed through `float`). -/
def intOfLit (ip : List Nat) : Nat :=
  Nat.ofDigits 10 ip.reverse

/-- Modelled from the spec: re-serialization of an integer value as its
big-endian digit list (exact, no floating-point coercion; zero renders
as the single digit 0). -/
def serInt (n : Nat) : List Nat :=
  if n = 0 then [0] else (Nat.digits 10 n).reverse

/-- A canonical JSON number literal body: the integer part is `0` alone or
starts with a nonzero digit (JSON forbids redundant leading zeros), all
digits are below 10, and the fraction part is nonempty (grammar `int
frac` with `frac = "." digit+`; a literal without a fraction or exponent
part is parsed as an integer instead). -/
def canonicalLit (ip fp : List Nat) : Prop :=
  (ip = [0] ∨ ∃ d t, ip = d :: t ∧ d ≠ 0) ∧
    (∀ d ∈ ip, d < 10) ∧ (∀ d ∈ fp, d < 10) ∧ fp ≠ []

-- Equality of iteration outcomes is decidable (used to count completed
-- lines of a kind).
deriving instance DecidableEq for Except

/-- The events the loop body can emit (handler invocations and the
record-counter metric); the timer events and the end-of-pipe hook are
not among them. -/
def Event.isLineEvent : Event → Bool
  | .timerStart _ => false
  | .timerStop _ => false
  | .endOfPipe => false
  | _ => true

/-! ### Derived per-line observations, used to state the loop
properties. -/

/-- The `type` value of a line as the parser sees it (the value under the
`type` key of the parsed object, when the line parses). -/
def lineType (parse : String → Option JsonObj) (line : String) :
    Option JsonValue :=
  (parse line).bind (fun d => d.lookup "type")

/-- The events one line's loop iteration emits. -/
def lineEvents (parse : String → Option JsonObj) (h : Handlers)
    (line : String) : List Event :=
  (processOneLine parse h line).1

/-- The outcome of one line's loop iteration. -/
def lineOutcome (parse : String → Option JsonObj) (h : Handlers)
    (line : String) : Except PyErr JsonValue :=
  (processOneLine parse h line).2

/-- The `record_type` a completed iteration contributes to the stats
(`.null` as a placeholder on a failed iteration, where nothing is
counted). -/
def lineTypeVal (parse : String → Option JsonObj) (h : Handlers)
    (line : String) : JsonValue :=
  match lineOutcome parse h line with
  | .ok v => v
  | .error _ => .null

/-! ### Concrete instances for witnesses. -/

/-- Handlers whose five kind handlers all succeed, with the default
unknown-message policy. -/
def okHandlers : Handlers where
  schema _ := .ok ()
  record _ := .ok ()
  state _ := .ok ()
  activateVersion _ := .ok ()
  batch _ := .ok ()

/-- A tiny concrete stand-in for `json.loads` on four fixed lines: `S`
parses to a SCHEMA-typed object, `R` to a RECORD-typed object, `F` to an
object of the unknown type FOO, `N` to an object with no `type` key;
everything else is a syntax error. -/
def sampleParse : String → Option JsonObj := fun s =>
  if s = "S" then some (.cons "type" (.str "SCHEMA") .nil)
  else if s = "R" then some (.cons "type" (.str "RECORD") .nil)
  else if s = "F" then some (.cons "type" (.str "FOO") .nil)
  else if s = "N" then some (.cons "x" (.int 1) .nil)
  else none

end SingerSDK

namespace SingerSDK

lemma lookup_hasKey : ∀ {d : JsonObj} {k : String} {v : JsonValue},
    d.lookup k = some v → d.hasKey k = true
  | .nil, k, v, h => by simp [JsonObj.lookup] at h
  | .cons k' v' tl, k, v, h => by
    by_cases hk : k' = k
    · simp [JsonObj.hasKey, JsonObj.keys, hk]
    · simp [JsonObj.lookup, hk] at h
      have := lookup_hasKey h
      simp [JsonObj.hasKey, JsonObj.keys] at this ⊢
      exact Or.inr this

/-- C3: per-line validation (`_assert_line_requires`) raises
`InvalidInputLine` iff at least one required key is absent, and on
failure reports exactly the full missing subset `requires - set(line_dict)`
(as a set, the required keys minus the object's keys); in particular an
object without `type`, checked against the required set of the reader
loop, fails reporting exactly the missing set containing only `type`. -/
theorem assert_line_requires_missing_set (d : JsonObj) (requires : List String) :
    (assert_line_requires d requires = .ok () ↔ ∀ k ∈ requires, d.hasKey k = true)
    ∧ ((∃ k ∈ requires, d.hasKey k = false) →
        assert_line_requires d requires =
          .error (.invalidInputError (requires.filter (fun k => ! d.hasKey k)) d)
        ∧ (requires.filter (fun k => ! d.hasKey k)).toFinset
            = requires.toFinset \ d.keys.toFinset)
    ∧ (d.hasKey "type" = false →
        assert_line_requires d ["type"] = .error (.invalidInputError ["type"] d)) := by
  refine ⟨?_, ?_, ?_⟩
  · constructor
    · intro h
      unfold assert_line_requires at h
      by_cases hall : requires.all d.hasKey
      · intro k hk
        exact List.all_eq_true.mp hall k hk
      · simp [hall] at h
    · intro h
      unfold assert_line_requires
      have : requires.all d.hasKey = true := List.all_eq_true.mpr h
      simp [this]
  · rintro ⟨k, hk, hmiss⟩
    have hnall : ¬ (requires.all d.hasKey = true) := by
      intro hall
      have := List.all_eq_true.mp hall k hk
      rw [hmiss] at this
      exact Bool.false_ne_true this
    constructor
    · unfold assert_line_requires
      simp [hnall]
    · ext x
      simp [List.mem_toFinset, List.mem_filter, Finset.mem_sdiff,
        JsonObj.hasKey, List.mem_toFinset]
  · intro htype
    unfold assert_line_requires
    simp [htype]

theorem assert_witness :
    assert_line_requires (.cons "x" (.int 1) .nil) ["type"]
      = .error (.invalidInputError ["type"] (.cons "x" (.int 1) .nil)) :=
  (assert_line_requires_missing_set (.cons "x" (.int 1) .nil) ["type"]).2.2 (by decide)

/-- C4: a line that is not syntactically valid JSON makes
`deserialize_json` fail with the parse error carrying the offending
line; the failure aborts `listen` (only the timer events appear in the
trace: no message handler is invoked for that line or any later one). -/
theorem parse_error_aborts_listen (parse : String → Option JsonObj)
    (h : Handlers) (pid : Nat) (line : String) (rest : List String)
    (hbad : parse line = none) :
    deserialize_json parse line = .error (.parseError line)
    ∧ listen parse h pid (line :: rest)
        = ([.timerStart pid, .timerStop pid], .error (.parseError line)) := by
  have hd : deserialize_json parse line = .error (.parseError line) := by
    simp [deserialize_json, hbad]
  refine ⟨hd, ?_⟩
  simp [listen, processLinesAux, processOneLine, hd]

theorem parse_error_witness :
    listen sampleParse okHandlers 0 ["bad", "S"]
      = ([.timerStart 0, .timerStop 0], .error (.parseError "bad")) :=
  (parse_error_aborts_listen sampleParse okHandlers 0 "bad" ["S"] (by decide)).2

/-- C5: a line whose `type` value is outside the five known kinds makes
the default unknown-message handler fail with the `ValueError` (the
spec's `UnrecognizedMessageError`) naming the unknown type value; the
failure is fatal to `listen` and the run is identical to a run where the
stream ended at that line (no subsequent line is processed). -/
theorem unknown_type_fatal (parse : String → Option JsonObj) (h : Handlers)
    (pid : Nat) (line : String) (d : JsonObj) (ty : String)
    (rest : List String)
    (hp : parse line = some d) (ht : d.lookup "type" = some (.str ty))
    (hk : ty ∉ knownMessageTypes) (hu : h.unknown = process_unknown_message) :
    listen parse h pid (line :: rest)
      = ( [.timerStart pid, .unknownMsg d, .timerStop pid],
          .error (.unrecognizedMessageError
            ("Unknown message type " ++ ty ++ " in message.")))
    ∧ listen parse h pid (line :: rest) = listen parse h pid [line] := by
  simp [knownMessageTypes] at hk
  push_neg at hk
  obtain ⟨h1, h2, h3, h4, h5⟩ := hk
  have hassert : assert_line_requires d ["type"] = .ok () := by
    unfold assert_line_requires
    simp [lookup_hasKey ht]
  have hone : processOneLine parse h line
      = ([.unknownMsg d], .error (.unrecognizedMessageError
          ("Unknown message type " ++ ty ++ " in message."))) := by
    simp [processOneLine, deserialize_json, hp, hassert, ht, dispatchLine,
      h1, h2, h3, h4, h5, hu, process_unknown_message, JsonValue.pyStr]
  constructor
  · simp [listen, processLinesAux, hone]
  · simp [listen, processLinesAux, hone]

theorem unknown_type_witness :
    listen sampleParse okHandlers 0 ["F", "S"]
      = ( [.timerStart 0, .unknownMsg (.cons "type" (.str "FOO") .nil), .timerStop 0],
          .error (.unrecognizedMessageError
            ("Unknown message type FOO in message."))) :=
  (unknown_type_fatal sampleParse okHandlers 0 "F"
    (.cons "type" (.str "FOO") .nil) "FOO" ["S"]
    (by decide) (by decide) (by decide) rfl).1

/-- C10: a `TestTemplate` whose `name` or `type` attribute is falsy fails
`run` with `ValueError` before any lifecycle step: the list of invoked
steps is empty, so none of setup, test, validate or teardown runs. -/
theorem run_requires_name_and_type (name ty : Option String)
    (steps : StepResults)
    (hf : falsyStrOpt name = true ∨ falsyStrOpt ty = true) :
    TestTemplate.run name ty steps
      = ([], .error (.valueError "Test must have name and type properties.")) := by
  unfold TestTemplate.run
  rcases hf with hf | hf <;> simp [hf]

theorem run_requires_witness :
    TestTemplate.run none (some "tap") ⟨.ok (), .ok (), .ok (), .ok ()⟩
      = ([], .error (.valueError "Test must have name and type properties.")) :=
  run_requires_name_and_type none (some "tap") ⟨.ok (), .ok (), .ok (), .ok ()⟩
    (Or.inl (by decide))

/-- C8: `selection_to_fields` is the pure composition of
`selection_to_tree` and `_tree_to_fields`; two calls of one double
invocation on the same mask return the same structure and leave the mask
unchanged. -/
theorem selection_to_fields_deterministic (m : SelectionMask) :
    selection_to_fields_twice m
      = (_tree_to_fields (selection_to_tree m),
         _tree_to_fields (selection_to_tree m), m)
    ∧ (selection_to_fields_twice m).1 = (selection_to_fields_twice m).2.1
    ∧ (selection_to_fields_twice m).2.2 = m :=
  ⟨rfl, rfl, rfl⟩

lemma hasPath_nil_path (t : FieldTree) : t.hasPath [] = true := by
  cases t <;> simp [FieldTree.hasPath]

lemma insertPath_hasPath_self :
    ∀ (p : List String) (t : FieldTree), (t.insertPath p).hasPath p = true := by
  intro p
  induction p with
  | nil =>
    intro t
    simp [FieldTree.insertPath, hasPath_nil_path]
  | cons s rest ih =>
    intro t
    induction t with
    | nil => simp [FieldTree.insertPath, FieldTree.hasPath, ih]
    | cons k sub r ihsub ihrest =>
      by_cases hk : k = s
      · simp [FieldTree.insertPath, hk, FieldTree.hasPath, ih]
      · simp [FieldTree.insertPath, hk, FieldTree.hasPath, ihrest]

lemma insertPath_preserves_hasPath :
    ∀ (p q : List String) (t : FieldTree),
      t.hasPath q = true → (t.insertPath p).hasPath q = true := by
  intro p
  induction p with
  | nil =>
    intro q t h
    simpa [FieldTree.insertPath] using h
  | cons s rest ih =>
    intro q t
    induction t with
    | nil =>
      intro h
      cases q with
      | nil => simp [hasPath_nil_path]
      | cons s' q' => simp [FieldTree.hasPath] at h
    | cons k sub r ihsub ihrest =>
      intro h
      cases q with
      | nil => simp [hasPath_nil_path]
      | cons s' q' =>
        by_cases hk : k = s
        · subst hk
          by_cases hs' : k = s'
          · subst hs'
            simp [FieldTree.hasPath] at h
            simp [FieldTree.insertPath, FieldTree.hasPath, ih _ _ h]
          · simp [FieldTree.hasPath, hs'] at h
            simp [FieldTree.insertPath, FieldTree.hasPath, hs', h]
        · by_cases hs' : k = s'
          · subst hs'
            simp [FieldTree.hasPath] at h
            simp [FieldTree.insertPath, FieldTree.hasPath, hk, h]
          · simp [FieldTree.hasPath, hs'] at h
            simp [FieldTree.insertPath, FieldTree.hasPath, hk, hs', ihrest h]

lemma insertPath_hasPath_sound :
    ∀ (p q : List String) (t : FieldTree),
      (t.insertPath p).hasPath q = true →
      t.hasPath q = true ∨ ∃ r, q ++ r = p := by
  intro p
  induction p with
  | nil =>
    intro q t h
    exact Or.inl (by simpa [FieldTree.insertPath] using h)
  | cons s rest ih =>
    intro q t
    induction t with
    | nil =>
      intro h
      cases q with
      | nil => exact Or.inr ⟨s :: rest, rfl⟩
      | cons s' q' =>
        simp [FieldTree.insertPath, FieldTree.hasPath] at h
        obtain ⟨hs', h'⟩ := h
        rcases ih q' _ h' with hnil | ⟨r, hr⟩
        · cases q' with
          | nil => exact Or.inr ⟨rest, by simp [hs']⟩
          | cons a b => simp [FieldTree.hasPath] at hnil
        · exact Or.inr ⟨r, by simp [hs', hr]⟩
    | cons k sub r ihsub ihrest =>
      intro h
      cases q with
      | nil => exact Or.inl (hasPath_nil_path _)
      | cons s' q' =>
        by_cases hk : k = s
        · subst hk
          by_cases hs' : k = s'
          · subst hs'
            simp [FieldTree.insertPath, FieldTree.hasPath] at h
            rcases ih q' _ h with hsub | ⟨rr, hrr⟩
            · exact Or.inl (by simp [FieldTree.hasPath, hsub])
            · exact Or.inr ⟨rr, by simp [hrr]⟩
          · simp [FieldTree.insertPath, FieldTree.hasPath, hs'] at h
            exact Or.inl (by simp [FieldTree.hasPath, hs', h])
        · by_cases hs' : k = s'
          · subst hs'
            simp [FieldTree.insertPath, FieldTree.hasPath, hk] at h
            exact Or.inl (by simp [FieldTree.hasPath, h])
          · simp [FieldTree.insertPath, FieldTree.hasPath, hk, hs'] at h
            rcases ihrest h with hr | hr
            · exact Or.inl (by simp [FieldTree.hasPath, hs', hr])
            · exact Or.inr hr

lemma foldl_insert_preserves :
    ∀ (m : SelectionMask) (t : FieldTree) (q : List String),
      t.hasPath q = true →
      (m.foldl (fun t e => if e.2 then t.insertPath e.1 else t) t).hasPath q = true := by
  intro m
  induction m with
  | nil => intro t q h; simpa using h
  | cons e m' ih =>
    intro t q h
    simp only [List.foldl_cons]
    apply ih
    by_cases he : e.2
    · simp [he, insertPath_preserves_hasPath _ _ _ h]
    · simp [he, h]

lemma foldl_insert_complete :
    ∀ (m : SelectionMask) (t : FieldTree) (p : List String),
      (p, true) ∈ m →
      (m.foldl (fun t e => if e.2 then t.insertPath e.1 else t) t).hasPath p = true := by
  intro m
  induction m with
  | nil => intro t p h; simp at h
  | cons e m' ih =>
    intro t p h
    simp only [List.foldl_cons]
    rcases List.mem_cons.mp h with he | hm
    · have : e = (p, true) := he.symm
      subst this
      simp only [if_pos rfl]
      exact foldl_insert_preserves m' _ p (insertPath_hasPath_self p t)
    · exact ih _ p hm

lemma foldl_insert_sound :
    ∀ (m : SelectionMask) (t : FieldTree) (q : List String),
      (m.foldl (fun t e => if e.2 then t.insertPath e.1 else t) t).hasPath q = true →
      t.hasPath q = true ∨ ∃ p, (p, true) ∈ m ∧ ∃ r, q ++ r = p := by
  intro m
  induction m with
  | nil =>
    intro t q h
    exact Or.inl (by simpa using h)
  | cons e m' ih =>
    intro t q h
    simp only [List.foldl_cons] at h
    rcases ih _ q h with hstep | ⟨p, hp, hr⟩
    · by_cases he : e.2
      · rw [if_pos he] at hstep
        rcases insertPath_hasPath_sound e.1 q t hstep with ht | ⟨r, hr⟩
        · exact Or.inl ht
        · refine Or.inr ⟨e.1, ?_, r, hr⟩
          have : e = (e.1, true) := by
            cases e with
            | mk a b => simp at he; simp [he]
          rw [← this]
          exact List.mem_cons_self _ _
      · rw [if_neg he] at hstep
        exact Or.inl hstep
    · exact Or.inr ⟨p, List.mem_cons_of_mem _ hp, hr⟩

lemma tree_to_fields_hasPath :
    ∀ (t : FieldTree) (q : List String),
      (_tree_to_fields t).hasPath q = t.hasPath q := by
  intro t
  induction t with
  | nil => intro q; cases q <;> simp [_tree_to_fields, FieldList.hasPath, FieldTree.hasPath]
  | cons k sub rest ihsub ihrest =>
    intro q
    cases q with
    | nil => simp [FieldList.hasPath, FieldTree.hasPath]
    | cons s p =>
      by_cases hk : k = s
      · simp [_tree_to_fields, FieldList.hasPath, FieldTree.hasPath,
          Field.name, Field.fields, hk, ihsub]
      · simp [_tree_to_fields, FieldList.hasPath, FieldTree.hasPath,
          Field.name, Field.fields, hk, ihrest]

lemma mem_selectedPaths {m : SelectionMask} {p : List String} :
    p ∈ m.selectedPaths ↔ (p, true) ∈ m := by
  simp only [SelectionMask.selectedPaths, List.mem_map, List.mem_filter]
  constructor
  · rintro ⟨⟨a, b⟩, ⟨hm, hb⟩, rfl⟩
    simp only at hb
    simp only at hm ⊢
    rwa [show b = true from hb] at hm
  · intro h
    exact ⟨(p, true), ⟨h, rfl⟩, rfl⟩

/-- C2: the field list returned by `selection_to_fields` exactly mirrors
the selected paths: every selected path is present as a chain of named
fields; every nonempty path present in the field list is a prefix of
some selected path (no extra branch); the empty mask yields an empty
field list; and a mask selecting both a path and its descendant yields a
single shared field carrying the child, not two entries. -/
theorem selection_projection_mirrors (m : SelectionMask) :
    (∀ p : List String, (p, true) ∈ m → (selection_to_fields m).hasPath p = true)
    ∧ (∀ (s : String) (q : List String),
        (selection_to_fields m).hasPath (s :: q) = true →
        m.onSelectedPath (s :: q))
    ∧ selection_to_fields [] = .nil
    ∧ selection_to_fields [(["x"], true), (["x", "y"], true)]
        = .cons (.mk "x" (.cons (.mk "y" .nil) .nil)) .nil := by
  refine ⟨?_, ?_, rfl, ?_⟩
  case refine_3 =>
    show _tree_to_fields (FieldTree.insertPath (FieldTree.insertPath .nil ["x"]) ["x", "y"]) = _
    simp [FieldTree.insertPath, _tree_to_fields]
  · intro p hp
    rw [selection_to_fields, tree_to_fields_hasPath]
    exact foldl_insert_complete m .nil p hp
  · intro s q h
    rw [selection_to_fields, tree_to_fields_hasPath] at h
    rcases foldl_insert_sound m .nil (s :: q) h with hnil | ⟨p, hp, r, hr⟩
    · simp [FieldTree.hasPath] at hnil
    · exact ⟨p, mem_selectedPaths.mpr hp, r, hr⟩

theorem selection_projection_witness :
    (selection_to_fields [(["x"], true), (["x", "y"], true)]).hasPath ["x", "y"] = true :=
  (selection_projection_mirrors [(["x"], true), (["x", "y"], true)]).1 ["x", "y"] (by decide)

lemma processOneLine_pair (parse : String → Option JsonObj) (h : Handlers)
    (l : String) :
    processOneLine parse h l = (lineEvents parse h l, lineOutcome parse h l) := by
  simp [lineEvents, lineOutcome]

lemma Stats.get_incr (s : Stats) (k k' : JsonValue) :
    (s.incr k).get k' = s.get k' + (if k' = k then 1 else 0) := by
  induction s with
  | nil =>
    by_cases hk : k' = k
    · simp [Stats.incr, Stats.get, hk]
    · simp [Stats.incr, Stats.get, hk, Ne.symm hk]
  | cons e rest ih =>
    obtain ⟨ke, n⟩ := e
    by_cases h1 : ke = k
    · subst h1
      by_cases h2 : k' = ke
      · subst h2
        simp [Stats.incr, Stats.get]
      · simp [Stats.incr, Stats.get, h2, Ne.symm h2, fun hh => h2 (Eq.symm hh)]
    · by_cases h2 : k' = ke
      · subst h2
        simp [Stats.incr, Stats.get, h1, Ne.symm h1]
      · have h2' : ¬ ke = k' := fun hh => h2 hh.symm
        simp [Stats.incr, Stats.get, h1, h2', ih]

lemma Stats.total_incr (s : Stats) (k : JsonValue) :
    (s.incr k).total = s.total + 1 := by
  induction s with
  | nil => simp [Stats.incr, Stats.total]
  | cons e rest ih =>
    obtain ⟨ke, n⟩ := e
    by_cases h1 : ke = k
    · simp [Stats.incr, Stats.total, h1]
      ring
    · simp [Stats.incr, Stats.total, h1] at ih ⊢
      omega

lemma Stats.get_foldl (f : String → JsonValue) :
    ∀ (lines : List String) (s : Stats) (k : JsonValue),
      Stats.get (lines.foldl (fun s l => Stats.incr s (f l)) s) k
        = Stats.get s k + (lines.filter (fun l => decide (f l = k))).length := by
  intro lines
  induction lines with
  | nil => intro s k; simp
  | cons l rest ih =>
    intro s k
    rw [List.foldl_cons, ih, Stats.get_incr]
    by_cases hl : f l = k
    · simp [List.filter_cons, hl]
      omega
    · simp [List.filter_cons, hl, Ne.symm hl]

lemma Stats.total_foldl (f : String → JsonValue) :
    ∀ (lines : List String) (s : Stats),
      Stats.total (lines.foldl (fun s l => Stats.incr s (f l)) s)
        = Stats.total s + lines.length := by
  intro lines
  induction lines with
  | nil => intro s; simp
  | cons l rest ih =>
    intro s
    rw [List.foldl_cons, ih, Stats.total_incr, List.length_cons]
    omega

lemma processLinesAux_all_ok (parse : String → Option JsonObj) (h : Handlers) :
    ∀ (lines : List String) (stats : Stats),
      (∀ l ∈ lines, ∃ v, lineOutcome parse h l = .ok v) →
      processLinesAux parse h lines stats
        = ((lines.map (lineEvents parse h)).flatten,
           lines.foldl (fun s l => Stats.incr s (lineTypeVal parse h l)) stats,
           none) := by
  intro lines
  induction lines with
  | nil => intro stats _; simp [processLinesAux]
  | cons l rest ih =>
    intro stats hgood
    obtain ⟨v, hv⟩ := hgood l (List.mem_cons_self _ _)
    have hone : processOneLine parse h l = (lineEvents parse h l, .ok v) := by
      rw [processOneLine_pair, hv]
    have htv : lineTypeVal parse h l = v := by
      simp [lineTypeVal, hv]
    simp only [processLinesAux, hone, List.map_cons, List.flatten_cons,
      List.foldl_cons, htv]
    rw [ih _ (fun x hx => hgood x (List.mem_cons_of_mem _ hx))]

lemma processLinesAux_err (parse : String → Option JsonObj) (h : Handlers)
    (bad : String) (post : List String) (e : PyErr)
    (hbad : lineOutcome parse h bad = .error e) :
    ∀ (pre : List String) (stats : Stats),
      (∀ l ∈ pre, ∃ v, lineOutcome parse h l = .ok v) →
      processLinesAux parse h (pre ++ bad :: post) stats
        = ((pre.map (lineEvents parse h)).flatten ++ lineEvents parse h bad,
           pre.foldl (fun s l => Stats.incr s (lineTypeVal parse h l)) stats,
           some e) := by
  intro pre
  induction pre with
  | nil =>
    intro stats _
    have hone : processOneLine parse h bad = (lineEvents parse h bad, .error e) := by
      rw [processOneLine_pair, hbad]
    simp [processLinesAux, hone]
  | cons l rest ih =>
    intro stats hgood
    obtain ⟨v, hv⟩ := hgood l (List.mem_cons_self _ _)
    have hone : processOneLine parse h l = (lineEvents parse h l, .ok v) := by
      rw [processOneLine_pair, hv]
    have htv : lineTypeVal parse h l = v := by
      simp [lineTypeVal, hv]
    simp only [List.cons_append, processLinesAux, hone, List.map_cons,
      List.flatten_cons, List.foldl_cons, htv]
    have harr : rest.append (bad :: post) = rest ++ bad :: post := rfl
    rw [harr, ih _ (fun x hx => hgood x (List.mem_cons_of_mem _ hx))]
    simp

/-- C9: if the i-th line fails (syntax error, missing `type`, unknown
kind, or a handler exception) while all lines before it complete, then
the loop stops with that first exception, the trace is exactly the
previous lines' events followed by the failing line's partial events (no
later line is read or dispatched), and the accumulated stats count
exactly the completed lines: total equals their number, each kind counts
the completed lines of that kind, and the failing line is not counted. -/
theorem error_stats_count_completed (parse : String → Option JsonObj)
    (h : Handlers) (pre : List String) (bad : String) (post : List String)
    (e : PyErr)
    (hpre : ∀ l ∈ pre, ∃ v, lineOutcome parse h l = .ok v)
    (hbad : lineOutcome parse h bad = .error e) :
    processLinesAux parse h (pre ++ bad :: post) []
      = ((pre.map (lineEvents parse h)).flatten ++ lineEvents parse h bad,
         pre.foldl (fun s l => Stats.incr s (lineTypeVal parse h l)) [], some e)
    ∧ Stats.total
        (pre.foldl (fun s l => Stats.incr s (lineTypeVal parse h l)) ([] : Stats))
        = pre.length
    ∧ ∀ v : JsonValue,
        Stats.get
          (pre.foldl (fun s l => Stats.incr s (lineTypeVal parse h l)) ([] : Stats)) v
          = (pre.filter (fun l => decide (lineOutcome parse h l = .ok v))).length := by
  refine ⟨processLinesAux_err parse h bad post e hbad pre [] hpre, ?_, ?_⟩
  · rw [Stats.total_foldl]
    simp [Stats.total]
  · intro v
    rw [Stats.get_foldl]
    have h0 : Stats.get ([] : Stats) v = 0 := rfl
    rw [h0, Nat.zero_add]
    congr 1
    apply List.filter_congr
    intro x hx
    obtain ⟨w, hw⟩ := hpre x hx
    have htv : lineTypeVal parse h x = w := by simp [lineTypeVal, hw]
    rw [htv, hw]
    simp

lemma processOneLine_good (parse : String → Option JsonObj) (h : Handlers)
    (hs : ∀ d, h.schema d = .ok ()) (hr : ∀ d, h.record d = .ok ())
    (hst : ∀ d, h.state d = .ok ()) (ha : ∀ d, h.activateVersion d = .ok ())
    (hb : ∀ d, h.batch d = .ok ())
    {l : String} {d : JsonObj} {k : String}
    (hp : parse l = some d) (ht : d.lookup "type" = some (.str k))
    (hk : k ∈ knownMessageTypes) :
    lineOutcome parse h l = .ok (.str k) := by
  have hassert : assert_line_requires d ["type"] = .ok () := by
    unfold assert_line_requires
    simp [lookup_hasKey ht]
  simp only [knownMessageTypes, List.mem_cons, List.not_mem_nil, or_false] at hk
  rcases hk with rfl | rfl | rfl | rfl | rfl <;>
    simp [lineOutcome, processOneLine, deserialize_json, hp, hassert, ht,
      dispatchLine, hs, hr, hst, ha, hb]

/-- C1: for an input stream whose lines all parse as JSON objects whose
`type` is one of the five known kinds (and whose abstract handlers all
complete), `_process_lines` returns stats whose per-kind counts sum to
the number of input lines, and the count for each kind equals the number
of input lines of that kind. -/
theorem stats_sum_to_line_count (parse : String → Option JsonObj)
    (h : Handlers) (file_input : List String)
    (hs : ∀ d, h.schema d = .ok ()) (hr : ∀ d, h.record d = .ok ())
    (hst : ∀ d, h.state d = .ok ()) (ha : ∀ d, h.activateVersion d = .ok ())
    (hb : ∀ d, h.batch d = .ok ())
    (hlines : ∀ l ∈ file_input, ∃ d k, parse l = some d ∧
      d.lookup "type" = some (.str k) ∧ k ∈ knownMessageTypes) :
    process_lines parse h file_input
        = .ok (file_input.foldl
            (fun s l => Stats.incr s (lineTypeVal parse h l)) [])
    ∧ Stats.total
        (file_input.foldl
          (fun s l => Stats.incr s (lineTypeVal parse h l)) ([] : Stats))
        = file_input.length
    ∧ ∀ k : String,
        Stats.get
          (file_input.foldl
            (fun s l => Stats.incr s (lineTypeVal parse h l)) ([] : Stats))
          (.str k)
          = (file_input.filter
              (fun l => decide (lineType parse l = some (.str k)))).length := by
  have hgood : ∀ l ∈ file_input, ∃ v, lineOutcome parse h l = .ok v := by
    intro l hl
    obtain ⟨d, k, hp, ht, hk⟩ := hlines l hl
    exact ⟨.str k, processOneLine_good parse h hs hr hst ha hb hp ht hk⟩
  have haux := processLinesAux_all_ok parse h file_input [] hgood
  refine ⟨?_, ?_, ?_⟩
  · simp [process_lines, haux]
  · rw [Stats.total_foldl]
    simp [Stats.total]
  · intro k
    rw [Stats.get_foldl]
    have h0 : Stats.get ([] : Stats) (.str k) = 0 := rfl
    rw [h0, Nat.zero_add]
    congr 1
    apply List.filter_congr
    intro x hx
    obtain ⟨d, kx, hp, ht, hkx⟩ := hlines x hx
    have hout : lineOutcome parse h x = .ok (.str kx) :=
      processOneLine_good parse h hs hr hst ha hb hp ht hkx
    have htv : lineTypeVal parse h x = .str kx := by
      simp [lineTypeVal, hout]
    have hlt : lineType parse x = some (.str kx) := by
      simp [lineType, hp, ht]
    rw [htv, hlt]
    simp

theorem stats_sum_witness :
    Stats.total
      ((["S", "R", "R"] : List String).foldl
        (fun s l => Stats.incr s (lineTypeVal sampleParse okHandlers l)) [])
      = (["S", "R", "R"] : List String).length :=
  (stats_sum_to_line_count sampleParse okHandlers ["S", "R", "R"]
    (fun _ => rfl) (fun _ => rfl) (fun _ => rfl) (fun _ => rfl) (fun _ => rfl)
    (by
      intro l hl
      simp only [List.mem_cons, List.not_mem_nil, or_false] at hl
      rcases hl with rfl | rfl | rfl
      · exact ⟨.cons "type" (.str "SCHEMA") .nil, "SCHEMA", by decide, by decide, by decide⟩
      · exact ⟨.cons "type" (.str "RECORD") .nil, "RECORD", by decide, by decide, by decide⟩
      · exact ⟨.cons "type" (.str "RECORD") .nil, "RECORD", by decide, by decide, by decide⟩)).2.1

theorem error_stats_witness :
    Stats.get
      ((["S"] : List String).foldl
        (fun s l => Stats.incr s (lineTypeVal sampleParse okHandlers l)) [])
      (.str "SCHEMA")
      = ((["S"] : List String).filter
          (fun l => decide (lineOutcome sampleParse okHandlers l
            = .ok (.str "SCHEMA")))).length :=
  (error_stats_count_completed sampleParse okHandlers ["S"] "N" ["R"]
    (.invalidInputError ["type"] (.cons "x" (.int 1) .nil))
    (by
      intro l hl
      simp only [List.mem_cons, List.not_mem_nil, or_false] at hl
      rcases hl with rfl
      exact ⟨.str "SCHEMA", by decide⟩)
    (by decide)).2.2 (.str "SCHEMA")

lemma dispatchLine_events (h : Handlers) (rt : JsonValue) (d : JsonObj) :
    ∀ ev ∈ (dispatchLine h rt d).1, ev.isLineEvent = true := by
  unfold dispatchLine
  split_ifs <;> simp [Event.isLineEvent]

lemma processOneLine_events (parse : String → Option JsonObj) (h : Handlers)
    (l : String) :
    ∀ ev ∈ (processOneLine parse h l).1, ev.isLineEvent = true := by
  cases hd : deserialize_json parse l with
  | error e => simp [processOneLine, hd]
  | ok d =>
    cases ha : assert_line_requires d ["type"] with
    | error e => simp [processOneLine, hd, ha]
    | ok u =>
      cases u
      cases hl : d.lookup "type" with
      | none => simp [processOneLine, hd, ha, hl]
      | some rt =>
        cases hdp : dispatchLine h rt d with
        | mk evs res =>
          have hevs : ∀ ev ∈ evs, ev.isLineEvent = true := by
            have := dispatchLine_events h rt d
            rw [hdp] at this
            exact this
          cases res with
          | error e => simpa [processOneLine, hd, ha, hl, hdp] using hevs
          | ok u' =>
            cases u'
            simpa [processOneLine, hd, ha, hl, hdp] using hevs

lemma processLinesAux_events (parse : String → Option JsonObj) (h : Handlers) :
    ∀ (lines : List String) (stats : Stats),
      ∀ ev ∈ (processLinesAux parse h lines stats).1, ev.isLineEvent = true := by
  intro lines
  induction lines with
  | nil => intro stats ev hev; simp [processLinesAux] at hev
  | cons l rest ih =>
    intro stats ev hev
    cases hone : processOneLine parse h l with
    | mk evs res =>
      have hevs : ∀ e ∈ evs, e.isLineEvent = true := by
        have := processOneLine_events parse h l
        rw [hone] at this
        exact this
      cases res with
      | error e =>
        simp only [processLinesAux, hone] at hev
        exact hevs ev hev
      | ok v =>
        simp only [processLinesAux, hone, List.mem_append] at hev
        rcases hev with hev | hev
        · exact hevs ev hev
        · exact ih _ ev hev

/-- C7 (amended): on every `listen` invocation whose line processing
completes without an exception, the end-of-pipe hook runs exactly once,
strictly after all line events, and the whole trace is wrapped in the
duration timer tagged with the process id; the hook never runs before
the input is exhausted, and on an aborted invocation it does not run at
all. -/
theorem endofpipe_once_after_lines (parse : String → Option JsonObj)
    (h : Handlers) (pid : Nat) (lines : List String) :
    ((processLinesAux parse h lines []).2.2 = none →
      ∃ evs, listen parse h pid lines
          = (.timerStart pid :: evs ++ [.endOfPipe, .timerStop pid], .ok ())
        ∧ (∀ ev ∈ evs, ev.isLineEvent = true)
        ∧ (listen parse h pid lines).1.count .endOfPipe = 1)
    ∧ (∀ e, (processLinesAux parse h lines []).2.2 = some e →
        (listen parse h pid lines).1.count .endOfPipe = 0) := by
  constructor
  · intro hnone
    cases haux : processLinesAux parse h lines [] with
    | mk evs rest =>
      obtain ⟨stats, err⟩ := rest
      rw [haux] at hnone
      simp only at hnone
      subst hnone
      have hevs : ∀ ev ∈ evs, ev.isLineEvent = true := by
        have := processLinesAux_events parse h lines []
        rw [haux] at this
        exact this
      have hnotmem : Event.endOfPipe ∉ evs := by
        intro hmem
        have := hevs _ hmem
        simp [Event.isLineEvent] at this
      refine ⟨evs, ?_, hevs, ?_⟩
      · simp [listen, haux]
      · simp [listen, haux, List.count_append, List.count_cons,
          List.count_eq_zero.mpr hnotmem, Event.isLineEvent]
  · intro e herr
    cases haux : processLinesAux parse h lines [] with
    | mk evs rest =>
      obtain ⟨stats, err⟩ := rest
      rw [haux] at herr
      simp only at herr
      subst herr
      have hevs : ∀ ev ∈ evs, ev.isLineEvent = true := by
        have := processLinesAux_events parse h lines []
        rw [haux] at this
        exact this
      have hnotmem : Event.endOfPipe ∉ evs := by
        intro hmem
        have := hevs _ hmem
        simp [Event.isLineEvent] at this
      simp [listen, haux, List.count_append, List.count_cons,
        List.count_eq_zero.mpr hnotmem]

theorem endofpipe_witness :
    (listen sampleParse okHandlers 0 ["S"]).1.count .endOfPipe = 1 := by
  have := (endofpipe_once_after_lines sampleParse okHandlers 0 ["S"]).1 (by decide)
  obtain ⟨evs, _, _, hcount⟩ := this
  exact hcount

/-- C7 counterexample to the claim as stated: on a `listen` invocation
whose stream contains an invalid line, the end-of-pipe hook is not
invoked at all (zero occurrences in the trace), so it is not the case
that every `listen` invocation invokes the hook exactly once. -/
theorem endofpipe_not_on_error :
    ¬ (listen (fun _ => none) okHandlers 0 ["x"]).1.count .endOfPipe = 1 := by
  decide

lemma digits_ofDigits_pad :
    ∀ (L : List ℕ), (∀ d ∈ L, d < 10) →
      ∃ k, L = Nat.digits 10 (Nat.ofDigits 10 L) ++ List.replicate k 0 := by
  intro L
  induction L with
  | nil => exact fun _ => ⟨0, by simp⟩
  | cons d L' ih =>
    intro hd
    have hd10 : d < 10 := hd d (List.mem_cons_self _ _)
    have hL' : ∀ x ∈ L', x < 10 := fun x hx => hd x (List.mem_cons_of_mem _ hx)
    obtain ⟨k, hk⟩ := ih hL'
    by_cases h0 : Nat.ofDigits 10 (d :: L') = 0
    · have hsum : d + 10 * Nat.ofDigits 10 L' = 0 := by
        have := h0
        rw [Nat.ofDigits_cons] at this
        simpa using this
      have hd0 : d = 0 := by omega
      have hm0 : Nat.ofDigits 10 L' = 0 := by omega
      rw [hm0, Nat.digits_zero, List.nil_append] at hk
      refine ⟨k + 1, ?_⟩
      rw [h0, Nat.digits_zero, List.nil_append, hd0, hk, List.replicate_succ]
    · have hpos : 0 < Nat.ofDigits 10 (d :: L') := Nat.pos_of_ne_zero h0
      have hmod : Nat.ofDigits 10 (d :: L') % 10 = d := by
        rw [Nat.ofDigits_cons]
        simp [Nat.add_mul_mod_self_left, Nat.mod_eq_of_lt hd10]
      have hdiv : Nat.ofDigits 10 (d :: L') / 10 = Nat.ofDigits 10 L' := by
        rw [Nat.ofDigits_cons]
        simp [Nat.add_mul_div_left _ _ (by norm_num : 0 < 10),
          Nat.div_eq_of_lt hd10]
      have hdig : Nat.digits 10 (Nat.ofDigits 10 (d :: L'))
          = d :: Nat.digits 10 (Nat.ofDigits 10 L') := by
        rw [Nat.digits_def' (by norm_num : (1:ℕ) < 10) hpos, hmod, hdiv]
      exact ⟨k, by rw [hdig, List.cons_append, ← hk]⟩

lemma digits_lt_10 {L : List ℕ} (hL : ∀ d ∈ L, d < 10) :
    ∀ d ∈ L.reverse, d < 10 := by
  intro d hd
  exact hL d (List.mem_reverse.mp hd)

/-- C6: `deserialize_json` decodes numeric literals with a
decimal-precision-preserving decoder: a fractional literal becomes a
`Decimal` whose serialization reproduces the literal digit for digit
(trailing zeros included, so 1.10 stays 1.10), an integer literal
round-trips exactly through arbitrary-precision `int` (never through a
lossy float), and the decoder distinguishes 1.10 from 1.1. -/
theorem decimal_roundtrip_exact :
    (∀ (neg : Bool) (ip fp : List ℕ), canonicalLit ip fp →
      serDec (decOfLit neg ip fp) = (neg, ip, fp))
    ∧ (∀ ip : List ℕ, (ip = [0] ∨ ∃ d t, ip = d :: t ∧ d ≠ 0) →
        (∀ d ∈ ip, d < 10) → serInt (intOfLit ip) = ip)
    ∧ decOfLit false [1] [1, 0] ≠ decOfLit false [1] [1] := by
  refine ⟨?_, ?_, by decide⟩
  · rintro neg ip fp ⟨hip, hipd, hfpd, hfpne⟩
    rcases hip with rfl | ⟨d, t, rfl, hdne⟩
    · -- integer part is the single digit 0
      have hfp10 : ∀ x ∈ fp.reverse, x < 10 := digits_lt_10 hfpd
      have hcoeff : Nat.ofDigits 10 (([0] ++ fp).reverse)
          = Nat.ofDigits 10 fp.reverse := by
        rw [List.reverse_append, Nat.ofDigits_append]
        simp [Nat.ofDigits_cons, Nat.ofDigits_nil]
      obtain ⟨k, hk⟩ := digits_ofDigits_pad fp.reverse hfp10
      have hlen : fp.length
          = (Nat.digits 10 (Nat.ofDigits 10 fp.reverse)).length + k := by
        have := congrArg List.length hk
        simpa using this
      have hfp : fp = List.replicate k 0
          ++ (Nat.digits 10 (Nat.ofDigits 10 fp.reverse)).reverse := by
        have := congrArg List.reverse hk
        simpa using this
      unfold serDec decOfLit Dec.paddedDigits
      simp only [hcoeff]
      set ds := (Nat.digits 10 (Nat.ofDigits 10 fp.reverse)).reverse with hds
      have hdslen : ds.length
          = (Nat.digits 10 (Nat.ofDigits 10 fp.reverse)).length := by
        simp [hds]
      have hpad : fp.length + 1 - ds.length = k + 1 := by omega
      have hpadded : List.replicate (fp.length + 1 - ds.length) 0 ++ ds
          = [0] ++ fp := by
        rw [hpad, hfp]
        simp [List.replicate_succ]
      simp only [hpadded]
      have hlen2 : ([0] ++ fp).length - fp.length = ([0] : List ℕ).length := by
        simp
      rw [hlen2, List.take_left, List.drop_left]
    · -- integer part starts with a nonzero digit
      have hall : ∀ x ∈ ((d :: t) ++ fp).reverse, x < 10 := by
        intro x hx
        rw [List.mem_reverse, List.mem_append] at hx
        rcases hx with hx | hx
        · exact hipd x hx
        · exact hfpd x hx
      have hne : ((d :: t) ++ fp).reverse ≠ [] := by simp
      have hlast : ∀ h : ((d :: t) ++ fp).reverse ≠ [],
          (((d :: t) ++ fp).reverse).getLast h ≠ 0 := by
        intro h
        rw [List.getLast_reverse]
        simpa using hdne
      have hdig : Nat.digits 10 (Nat.ofDigits 10 (((d :: t) ++ fp).reverse))
          = ((d :: t) ++ fp).reverse :=
        Nat.digits_ofDigits 10 (by norm_num) _ hall hlast
      unfold serDec decOfLit Dec.paddedDigits
      simp only [hdig, List.reverse_reverse]
      have hlen : ((d :: t) ++ fp).length = t.length + 1 + fp.length := by
        simp only [List.length_append, List.length_cons]
      have hpad : fp.length + 1 - ((d :: t) ++ fp).length = 0 := by
        rw [hlen]
        omega
      rw [hpad]
      simp only [List.replicate_zero, List.nil_append]
      have hlen2 : ((d :: t) ++ fp).length - fp.length = (d :: t).length := by
        simp only [List.length_append, List.length_cons]
        omega
      rw [hlen2, List.take_left, List.drop_left]
  · intro ip hip hipd
    rcases hip with rfl | ⟨d, t, rfl, hdne⟩
    · decide
    · have hall : ∀ x ∈ (d :: t).reverse, x < 10 := digits_lt_10 hipd
      have hlast : ∀ h : (d :: t).reverse ≠ [],
          ((d :: t).reverse).getLast h ≠ 0 := by
        intro h
        rw [List.getLast_reverse]
        simpa using hdne
      have hdig : Nat.digits 10 (Nat.ofDigits 10 ((d :: t).reverse))
          = (d :: t).reverse :=
        Nat.digits_ofDigits 10 (by norm_num) _ hall hlast
      have hne0 : Nat.ofDigits 10 ((d :: t).reverse) ≠ 0 := by
        intro h0
        rw [h0, Nat.digits_zero] at hdig
        exact absurd hdig.symm (by simp)
      unfold serInt intOfLit
      rw [if_neg hne0, hdig, List.reverse_reverse]

theorem decimal_witness :
    serDec (decOfLit false [1] [1, 0]) = (false, [1], [1, 0]) :=
  decimal_roundtrip_exact.1 false [1] [1, 0]
    ⟨Or.inr ⟨1, [], rfl, by decide⟩, by decide, by decide, by decide⟩

end SingerSDK
